import Mathlib

/-!
Verification development for the onward task-graph orchestration core
(src/onward/__init__.py, src/onward/executor.py, src/onward/errors.py).

The Python source is shallowly embedded: classes usable as type annotations
become the inductive `PyTy`, registry keys (`type[State] | str`) become
`OKey`, runtime values become `Value`, and each Python function of the core
is translated into an executable Lean definition of the same name wherever
Lean allows it.  The standard library `graphlib.TopologicalSorter` that the
code instantiates is embedded through its documented contract (add, prepare
with cycle detection, get_ready surfacing each node once, done, is_active).
-/

namespace Onward

/-- Model of a Python class that can appear as a type annotation of an
operation function.  A `State` subclass records the identity of the Plan
class it belongs to (the `__onward_plan__` back reference installed by
`PlanMeta`) together with its own identity; a `Plan` subclass records its
identity; `noneTy` is `type(None)`; `otherTy` is any other class. -/
inductive PyTy where
  | stateTy (plan : Nat) (id : Nat)
  | planTy (plan : Nat)
  | noneTy
  | otherTy (tyName : String)
deriving DecidableEq

/-- Embeds `issubclass(t, State)`. -/
def PyTy.isState : PyTy → Bool
  | .stateTy _ _ => true
  | _ => false

/-- Embeds `issubclass(t, Plan)`. -/
def PyTy.isPlan : PyTy → Bool
  | .planTy _ => true
  | _ => false

/-- Key of a Plan registry `__onward_operations__` and node identity of the
dependency graph: either a class object or a function name string. -/
inductive OKey where
  | tyK (t : PyTy)
  | nameK (s : String)
deriving DecidableEq

/-- Runtime value an operation body may return. -/
inductive Value where
  | vnone
  | vstate (plan : Nat) (id : Nat) (payload : Nat)
  | vother (tyName : String) (payload : Nat)
deriving DecidableEq

/-- Embeds the `isinstance(value, cls)` checks performed by the wrapper. -/
def isinstance : Value → PyTy → Bool
  | .vstate p i _, .stateTy q j => p == q && i == j
  | .vnone, .noneTy => true
  | .vother t _, .otherTy u => t == u
  | _, _ => false

/-- Embeds the `SyncOperation` / `AsyncOperation` dataclasses of
executor.py: the callable is represented by its name, the rest are the
fields built by `operation` in __init__.py. -/
structure Operation where
  funcName : String
  dependencies : List PyTy
  provides : PyTy
  hintMap : List (PyTy × String)
  isAsync : Bool
deriving DecidableEq

/-- Embeds the `id` property of executor.py:
`self.provides if self.provides is not type(None) else self.name`. -/
def Operation.opId (op : Operation) : OKey :=
  if op.provides = PyTy.noneTy then OKey.nameK op.funcName else OKey.tyK op.provides

/-- Errors raised by the registration and run paths of the core
(errors.py), plus the plain Python exceptions the code can hit. -/
inductive OpErr where
  | invalidOperationSignature (msg : String)
  | tooManyProviders (msg : String)
  | invalidOperationReturn (msg : String)
  | keyError
deriving DecidableEq

/-- Model of the static shape of a candidate Python function, holding
exactly what `operation` in __init__.py inspects: `__name__`,
`__code__.co_varnames` (parameter names first, then the names of body
local variables; `nparams` is `co_argcount`, so the declared parameters
are `varnames.take nparams`), `get_type_hints(func)` split into the
`return` entry and the remaining entries in annotation order, and
`iscoroutinefunction(func)`. -/
structure PyFunc where
  name : String
  nparams : Nat
  varnames : List String
  hints : List (String × PyTy)
  ret : Option PyTy
  isAsync : Bool

/-- Declared parameters of the function: the prefix of `co_varnames` of
length `co_argcount`. -/
def PyFunc.params (f : PyFunc) : List String :=
  f.varnames.take f.nparams

/-- Association lookup in a registry, embedding `dict.__getitem__` on
`__onward_operations__` (first match; registry keys are unique). -/
def lookupOperation : List (OKey × Operation) → OKey → Option Operation
  | [], _ => none
  | e :: rest, k => if e.1 = k then some e.2 else lookupOperation rest k

/-- Embeds the `operation` decorator of __init__.py.  `plansOps` maps each
Plan class (by identity) to its `__onward_operations__` registry; the
result is the owning Plan identity together with its updated registry, or
the error the decorator raises.  The checks appear in source order; the
dependency list and hint map are built from the type hints with the
`return` entry removed, in annotation order. -/
def operation (f : PyFunc) (plansOps : Nat → List (OKey × Operation)) :
    Except OpErr (Nat × List (OKey × Operation)) :=
  match f.ret with
  | none => .error (.invalidOperationSignature "does not have a typed return value")
  | some provides =>
    if ¬ (provides.isState = true ∨ provides = PyTy.noneTy) then
      .error (.invalidOperationSignature "has an incorrect typed return value")
    else if f.varnames = [] then
      .error (.invalidOperationSignature "has no arguements")
    else if ¬ (∀ n ∈ f.varnames, ∃ nt ∈ f.hints, nt.1 = n) then
      .error (.invalidOperationSignature "has untyped arguements")
    else if ¬ (∀ nt ∈ f.hints, nt.2.isState = true ∨ nt.2.isPlan = true) then
      .error (.invalidOperationSignature "arguement has an invalid type")
    else
      let depends := f.hints.map Prod.snd
      let plan :=
        match depends.head? with
        | some (PyTy.stateTy p _) => p
        | some (PyTy.planTy p) => p
        | _ => 0
      let op : Operation :=
        ⟨f.name, depends, provides, f.hints.map (fun nt => (nt.2, nt.1)), f.isAsync⟩
      let reg := plansOps plan
      if OKey.tyK provides ∈ reg.map Prod.fst ∨ OKey.nameK f.name ∈ reg.map Prod.fst then
        match lookupOperation reg op.opId with
        | none => .error .keyError
        | some _ =>
          if OKey.tyK provides ∈ reg.map Prod.fst then
            .error (.tooManyProviders "cannot both provide the same State")
          else
            .error (.tooManyProviders "cannot each return None and share the same function name")
      else
        .ok (plan, reg ++ [(op.opId, op)])

/-- Embeds `_operation_wrapper` of executor.py (identical in the sync and
async flavors).  `stateValue` stands for the value the wrapped user
function returned when called with the bound arguments. -/
def operationWrapper (op : Operation) (stateValue : Value) :
    Except OpErr (Value × OKey) :=
  if op.provides ≠ PyTy.noneTy then
    if ¬ isinstance stateValue op.provides then
      .error (.invalidOperationReturn "promised to return declared type")
    else if stateValue = Value.vnone then
      .error (.invalidOperationReturn "has desynced provide value")
    else
      .ok (stateValue, op.opId)
  else
    .ok (stateValue, op.opId)

/-- Errors the executor joins can raise: `NotRunningError` of errors.py,
the `concurrent.futures.TimeoutError` escaping `as_completed`, and the
`StopIteration` escaping `next()` on an exhausted iterator. -/
inductive ExecErr where
  | notRunning
  | timeoutError
  | stopIteration
deriving DecidableEq

/-- Embeds `SynchronousExecutor` of executor.py.  A deferred unit (the
`partial` built by `SyncOperation.__call__`) is represented by the
`(value, key)` pair it produces when invoked. -/
structure SynchronousExecutor where
  schedule : List (Value × OKey)
deriving DecidableEq

/-- Embeds the `running` property: `len(self.schedule) > 0`. -/
def SynchronousExecutor.running (e : SynchronousExecutor) : Bool :=
  e.schedule.length > 0

/-- Embeds `add_operations`: `self.schedule += [o[0] for o in operations]`
(each submitted pair is a deferred unit together with its key; only the
unit is kept). -/
def SynchronousExecutor.addOperations (e : SynchronousExecutor)
    (operations : List ((Value × OKey) × OKey)) : SynchronousExecutor :=
  ⟨e.schedule ++ operations.map Prod.fst⟩

/-- Embeds `join_next`: raise `NotRunningError` when nothing is scheduled,
otherwise `return self.schedule.pop()()` — pop the most recently submitted
deferred unit and execute it synchronously. -/
def SynchronousExecutor.joinNext (e : SynchronousExecutor)
    (_timeout : Option Nat) :
    Except ExecErr ((Value × OKey) × SynchronousExecutor) :=
  match e.schedule.getLast? with
  | none => .error .notRunning
  | some r => .ok (r, ⟨e.schedule.dropLast⟩)

/-- A future held by the thread pool: the pair the submitted unit produces
and the instant (abstract time, measured from the `join_next` call) at
which the worker thread finishes it. -/
structure PFuture where
  result : Value × OKey
  ctime : Nat
deriving DecidableEq

/-- First future to complete, as `concurrent.futures.as_completed` yields
it: the one with the least completion time (first among ties). -/
def firstCompleted : List PFuture → Option PFuture
  | [] => none
  | f :: rest =>
    match firstCompleted rest with
    | none => some f
    | some g => if g.ctime < f.ctime then some g else some f

/-- Embeds `ThreadedExecutor` of executor.py: the in-flight futures. -/
structure ThreadedExecutor where
  futures : List PFuture
deriving DecidableEq

/-- Embeds the `running` property: `len(self.futures) > 0`. -/
def ThreadedExecutor.running (e : ThreadedExecutor) : Bool :=
  e.futures.length > 0

/-- Embeds `add_operations`: each unit is submitted to the pool at once and
its future appended to the in-flight list. -/
def ThreadedExecutor.addOperations (e : ThreadedExecutor)
    (fs : List PFuture) : ThreadedExecutor :=
  ⟨e.futures ++ fs⟩

/-- Embeds `ThreadedExecutor.join_next`: raise `NotRunningError` when no
future is in flight; otherwise wait on
`next(as_completed(self.futures, timeout=timeout))` — when the first
future to complete does so after the timeout window, `as_completed`
raises `TimeoutError` and the in-flight list is left untouched; otherwise
the completed future is removed and its result returned.  The executor
state after the call is returned alongside the outcome. -/
def ThreadedExecutor.joinNext (e : ThreadedExecutor) (timeout : Option Nat) :
    Except ExecErr (Value × OKey) × ThreadedExecutor :=
  if e.futures.length > 0 then
    match firstCompleted e.futures with
    | none => (.error .notRunning, e)
    | some f =>
      match timeout with
      | some t =>
        if t < f.ctime then (.error .timeoutError, e)
        else (.ok f.result, ⟨e.futures.erase f⟩)
      | none => (.ok f.result, ⟨e.futures.erase f⟩)
  else (.error .notRunning, e)

/-- A task on the event loop of `AsyncioExecutor`: the registry key it was
stored under in `self.tasks`, the pair it produces, and the instant at
which it completes. -/
structure ATask where
  key : OKey
  result : Value × OKey
  ctime : Nat
deriving DecidableEq

/-- First task to complete, as `asyncio.as_completed` yields it. -/
def firstCompletedTask : List ATask → Option ATask
  | [] => none
  | f :: rest =>
    match firstCompletedTask rest with
    | none => some f
    | some g => if g.ctime < f.ctime then some g else some f

/-- Embeds `AsyncioExecutor` of executor.py: the in-flight task map
(association by key) and whether the event loop has been closed. -/
structure AsyncioExecutor where
  tasks : List ATask
  loopClosed : Bool
deriving DecidableEq

/-- Embeds the `running` property of `AsyncioExecutor`:
`len(self.tasks) > 0 or self.loop.is_closed()`. -/
def AsyncioExecutor.running (e : AsyncioExecutor) : Bool :=
  e.tasks.length > 0 || e.loopClosed

/-- Embeds `AsyncioExecutor.join_next`: raise `NotRunningError` when
`running` is false; otherwise `next(asyncio.as_completed(self.tasks.values()))`
— note the source passes no timeout to `as_completed`, so the `timeout`
argument is ignored — then run the task to completion, delete the task
stored under the key carried in the returned pair, and return the pair.
With `running` true but no task in flight, `next` on the exhausted
iterator raises `StopIteration`. -/
def AsyncioExecutor.joinNext (e : AsyncioExecutor) (_timeout : Option Nat) :
    Except ExecErr (Value × OKey) × AsyncioExecutor :=
  if e.running then
    match firstCompletedTask e.tasks with
    | none => (.error .stopIteration, e)
    | some tk =>
      (.ok tk.result,
       ⟨e.tasks.filter (fun t => ¬ t.key = tk.result.2), e.loopClosed⟩)
  else (.error .notRunning, e)

/-- Predecessor list stored for a node of the dependency graph; first
match, the graph never holds two entries for one node. -/
def lookupPreds : List (OKey × List OKey) → OKey → List OKey
  | [], _ => []
  | e :: rest, k => if e.1 = k then e.2 else lookupPreds rest k

/-- Ensure a node entry exists in the accumulated graph (a node mentioned
for the first time starts with no predecessors). -/
def addEntry (g : List (OKey × List OKey)) (k : OKey) : List (OKey × List OKey) :=
  if g.any (fun e => e.1 = k) then g else g ++ [(k, [])]

/-- Append predecessors to the entry of an existing node. -/
def appendPreds : List (OKey × List OKey) → OKey → List OKey → List (OKey × List OKey)
  | [], _, _ => []
  | e :: rest, k, ps =>
    (if e.1 = k then (e.1, e.2 ++ ps) else e) :: appendPreds rest k ps

/-- Embeds one `TopologicalSorter.add(node, *predecessors)` call on the
graph part: the node entry is created when missing, the predecessors are
appended to it, and every predecessor missing from the node set is added
as a node of its own. -/
def addNode (g : List (OKey × List OKey)) (k : OKey) (ps : List OKey) :
    List (OKey × List OKey) :=
  ps.foldl addEntry (appendPreds (addEntry g k) k ps)

/-- Dependency keys of a descriptor that enter the graph:
`(dep for dep in operation.dependencies if issubclass(dep, State))` —
the context (Plan) dependency is excluded. -/
def stateDeps (op : Operation) : List OKey :=
  (op.dependencies.filter (fun d => d.isState)).map OKey.tyK

/-- Graph accumulated by the `add` loop of `Plan.__init__` over the whole
registry. -/
def buildGraph (reg : List (OKey × Operation)) : List (OKey × List OKey) :=
  reg.foldl (fun g ko => addNode g ko.1 (stateDeps ko.2)) []

theorem lookupPreds_of_not_mem {g : List (OKey × List OKey)} {k : OKey}
    (h : k ∉ g.map Prod.fst) : lookupPreds g k = [] := by
  induction g with
  | nil => rfl
  | cons e rest ih =>
    simp only [List.map_cons, List.mem_cons, not_or] at h
    have he : ¬ e.1 = k := fun hek => h.1 hek.symm
    simp only [lookupPreds, if_neg he]
    exact ih h.2

theorem lookupPreds_append_left {g h : List (OKey × List OKey)} {k : OKey}
    (hm : k ∈ g.map Prod.fst) : lookupPreds (g ++ h) k = lookupPreds g k := by
  induction g with
  | nil => simp at hm
  | cons e rest ih =>
    by_cases he : e.1 = k
    · simp only [List.cons_append, lookupPreds, if_pos he]
    · have hm2 : k ∈ rest.map Prod.fst := by
        simp only [List.map_cons, List.mem_cons] at hm
        rcases hm with hh | hh
        · exact absurd hh.symm he
        · exact hh
      simp only [List.cons_append, lookupPreds, if_neg he]
      exact ih hm2

theorem lookupPreds_append_right {g h : List (OKey × List OKey)} {k : OKey}
    (hm : k ∉ g.map Prod.fst) : lookupPreds (g ++ h) k = lookupPreds h k := by
  induction g with
  | nil => rfl
  | cons e rest ih =>
    simp only [List.map_cons, List.mem_cons, not_or] at hm
    have he : ¬ e.1 = k := fun hek => hm.1 hek.symm
    simp only [List.cons_append, lookupPreds, if_neg he]
    exact ih hm.2

/-- addEntry never changes the stored predecessor list of any node: an
existing entry is untouched, a fresh node starts with no predecessors. -/
theorem lookupPreds_addEntry (g : List (OKey × List OKey)) (p j : OKey) :
    lookupPreds (addEntry g p) j = lookupPreds g j := by
  unfold addEntry
  by_cases hc : g.any (fun e => decide (e.1 = p)) = true
  · simp [hc]
  · rw [if_neg hc]
    by_cases hj : j ∈ g.map Prod.fst
    · exact lookupPreds_append_left hj
    · rw [lookupPreds_append_right hj, lookupPreds_of_not_mem hj]
      by_cases hpj : p = j <;> simp [lookupPreds, hpj]

theorem lookupPreds_foldl_addEntry (ps : List OKey) (g : List (OKey × List OKey))
    (j : OKey) : lookupPreds (ps.foldl addEntry g) j = lookupPreds g j := by
  induction ps generalizing g with
  | nil => rfl
  | cons p rest ih => rw [List.foldl_cons, ih, lookupPreds_addEntry]

theorem lookupPreds_appendPreds_self (g : List (OKey × List OKey)) (k : OKey)
    (ps : List OKey) (hm : k ∈ g.map Prod.fst) :
    lookupPreds (appendPreds g k ps) k = lookupPreds g k ++ ps := by
  induction g with
  | nil => simp at hm
  | cons e rest ih =>
    by_cases he : e.1 = k
    · simp only [appendPreds, if_pos he, lookupPreds, he]
      simp [lookupPreds]
    · have hm2 : k ∈ rest.map Prod.fst := by
        simp only [List.map_cons, List.mem_cons] at hm
        rcases hm with hh | hh
        · exact absurd hh.symm he
        · exact hh
      simp only [appendPreds, if_neg he, lookupPreds, if_neg he]
      exact ih hm2

theorem lookupPreds_appendPreds_ne (g : List (OKey × List OKey)) (k : OKey)
    (ps : List OKey) (j : OKey) (hj : j ≠ k) :
    lookupPreds (appendPreds g k ps) j = lookupPreds g j := by
  induction g with
  | nil => rfl
  | cons e rest ih =>
    by_cases he : e.1 = k
    · have hne : ¬ e.1 = j := fun hh => hj (hh ▸ he ▸ rfl)
      have hne2 : ¬ (e.1 : OKey) = j := hne
      simp only [appendPreds, if_pos he, lookupPreds, if_neg hne2]
      exact ih
    · by_cases hej : e.1 = j
      · simp only [appendPreds, if_neg he, lookupPreds, if_pos hej]
      · simp only [appendPreds, if_neg he, lookupPreds, if_neg hej]
        exact ih

theorem mem_keys_addEntry (g : List (OKey × List OKey)) (k : OKey) :
    k ∈ (addEntry g k).map Prod.fst := by
  unfold addEntry
  by_cases hc : g.any (fun e => decide (e.1 = k)) = true
  · rw [if_pos hc]
    rcases List.any_eq_true.mp hc with ⟨e, he, hek⟩
    exact List.mem_map.mpr ⟨e, he, of_decide_eq_true hek⟩
  · rw [if_neg hc]
    simp

theorem keys_appendPreds (g : List (OKey × List OKey)) (k : OKey) (ps : List OKey) :
    (appendPreds g k ps).map Prod.fst = g.map Prod.fst := by
  induction g with
  | nil => rfl
  | cons e rest ih =>
    by_cases he : e.1 = k
    · simp only [appendPreds, if_pos he, List.map_cons, ih]
    · simp only [appendPreds, if_neg he, List.map_cons, ih]

/-- addNode rewrites the predecessor list of the added node by appending
the given predecessors, and leaves every other lookup unchanged. -/
theorem lookupPreds_addNode_self (g : List (OKey × List OKey)) (k : OKey)
    (ps : List OKey) : lookupPreds (addNode g k ps) k = lookupPreds g k ++ ps := by
  unfold addNode
  rw [lookupPreds_foldl_addEntry,
    lookupPreds_appendPreds_self _ _ _ (mem_keys_addEntry g k), lookupPreds_addEntry]

theorem lookupPreds_addNode_ne (g : List (OKey × List OKey)) (k : OKey)
    (ps : List OKey) (j : OKey) (hj : j ≠ k) :
    lookupPreds (addNode g k ps) j = lookupPreds g j := by
  unfold addNode
  rw [lookupPreds_foldl_addEntry, lookupPreds_appendPreds_ne _ _ _ _ hj,
    lookupPreds_addEntry]

theorem lookupPreds_fold_of_not_key (reg : List (OKey × Operation))
    (g : List (OKey × List OKey)) (k : OKey) (h : k ∉ reg.map Prod.fst) :
    lookupPreds (reg.foldl (fun gg ko => addNode gg ko.1 (stateDeps ko.2)) g) k =
      lookupPreds g k := by
  induction reg generalizing g with
  | nil => rfl
  | cons ko rest ih =>
    simp only [List.map_cons, List.mem_cons, not_or] at h
    rw [List.foldl_cons, ih _ h.2,
      lookupPreds_addNode_ne _ _ _ _ (fun he => h.1 he)]

/-- Each registered key ends up in the built graph with exactly the
state-type dependency keys of its descriptor as predecessors. -/
theorem lookupPreds_buildGraph (reg : List (OKey × Operation)) (k : OKey)
    (op : Operation) (hmem : (k, op) ∈ reg) (hnd : (reg.map Prod.fst).Nodup) :
    lookupPreds (buildGraph reg) k = stateDeps op := by
  unfold buildGraph
  suffices hgen : ∀ g : List (OKey × List OKey), lookupPreds g k = [] →
      lookupPreds (reg.foldl (fun gg ko => addNode gg ko.1 (stateDeps ko.2)) g) k =
        stateDeps op by
    exact hgen [] rfl
  induction reg with
  | nil => simp at hmem
  | cons ko rest ih =>
    intro g hg
    simp only [List.map_cons, List.nodup_cons] at hnd
    rcases List.mem_cons.mp hmem with hh | hh
    · have hk1 : ko.1 = k := by rw [← hh]
      have hop : ko.2 = op := by rw [← hh]
      have hnotin : k ∉ rest.map Prod.fst := hk1 ▸ hnd.1
      rw [List.foldl_cons, lookupPreds_fold_of_not_key rest _ k hnotin, hk1,
        lookupPreds_addNode_self, hg, hop, List.nil_append]
    · have hk : k ≠ ko.1 := by
        intro he
        exact hnd.1 (he ▸ List.mem_map.mpr ⟨(k, op), hh, rfl⟩)
      rw [List.foldl_cons]
      exact ih hh hnd.2 _ (by rw [lookupPreds_addNode_ne _ _ _ _ hk]; exact hg)

theorem keys_sub_addEntry (g : List (OKey × List OKey)) (p j : OKey)
    (h : j ∈ g.map Prod.fst) : j ∈ (addEntry g p).map Prod.fst := by
  unfold addEntry
  by_cases hc : g.any (fun e => decide (e.1 = p)) = true
  · rw [if_pos hc]; exact h
  · rw [if_neg hc]
    simp only [List.map_append, List.mem_append]
    exact Or.inl h

theorem keys_sub_foldl_addEntry (ps : List OKey) (g : List (OKey × List OKey))
    (j : OKey) (h : j ∈ g.map Prod.fst) :
    j ∈ (ps.foldl addEntry g).map Prod.fst := by
  induction ps generalizing g with
  | nil => exact h
  | cons p rest ih => exact ih _ (keys_sub_addEntry _ _ _ h)

theorem mem_keys_foldl_addEntry (ps : List OKey) (g : List (OKey × List OKey))
    (p : OKey) (h : p ∈ ps) : p ∈ (ps.foldl addEntry g).map Prod.fst := by
  induction ps generalizing g with
  | nil => simp at h
  | cons q rest ih =>
    rcases List.mem_cons.mp h with hh | hh
    · rw [List.foldl_cons]
      exact keys_sub_foldl_addEntry _ _ _ (hh ▸ mem_keys_addEntry g q)
    · exact ih _ hh

theorem keys_sub_addNode (g : List (OKey × List OKey)) (k : OKey) (ps : List OKey)
    (j : OKey) (h : j ∈ g.map Prod.fst) : j ∈ (addNode g k ps).map Prod.fst := by
  unfold addNode
  refine keys_sub_foldl_addEntry _ _ _ ?_
  rw [keys_appendPreds]
  exact keys_sub_addEntry _ _ _ h

theorem mem_keys_addNode_preds (g : List (OKey × List OKey)) (k : OKey)
    (ps : List OKey) (p : OKey) (h : p ∈ ps) : p ∈ (addNode g k ps).map Prod.fst :=
  mem_keys_foldl_addEntry _ _ _ h

theorem mem_keys_addNode_self (g : List (OKey × List OKey)) (k : OKey)
    (ps : List OKey) : k ∈ (addNode g k ps).map Prod.fst := by
  unfold addNode
  refine keys_sub_foldl_addEntry _ _ _ ?_
  rw [keys_appendPreds]
  exact mem_keys_addEntry g k

/-- Every predecessor stored in the built graph is itself a node of the
graph (TopologicalSorter.add inserts the predecessors as nodes too). -/
theorem buildGraph_closed (reg : List (OKey × Operation)) (j p : OKey)
    (h : p ∈ lookupPreds (buildGraph reg) j) :
    p ∈ (buildGraph reg).map Prod.fst := by
  unfold buildGraph at *
  revert j p h
  suffices hgen : ∀ g : List (OKey × List OKey),
      (∀ j2 p2, p2 ∈ lookupPreds g j2 → p2 ∈ g.map Prod.fst) →
      (∀ j2 p2, p2 ∈ lookupPreds
          (reg.foldl (fun gg ko => addNode gg ko.1 (stateDeps ko.2)) g) j2 →
        p2 ∈ (reg.foldl (fun gg ko => addNode gg ko.1 (stateDeps ko.2)) g).map Prod.fst) by
    intro j p h
    exact hgen [] (by intro j2 p2 hp; simp [lookupPreds] at hp) j p h
  induction reg with
  | nil => intro g hcl; exact hcl
  | cons ko rest ih =>
    intro g hcl
    rw [List.foldl_cons]
    refine ih _ ?_
    intro j2 p2 hp
    by_cases hj : j2 = ko.1
    · rw [hj, lookupPreds_addNode_self] at hp
      rcases List.mem_append.mp hp with hp | hp
      · exact keys_sub_addNode _ _ _ _ (hcl _ _ hp)
      · exact mem_keys_addNode_preds _ _ _ _ hp
    · rw [lookupPreds_addNode_ne _ _ _ _ hj] at hp
      exact keys_sub_addNode _ _ _ _ (hcl _ _ hp)

theorem keys_nodup_addEntry (g : List (OKey × List OKey)) (k : OKey)
    (h : (g.map Prod.fst).Nodup) : ((addEntry g k).map Prod.fst).Nodup := by
  unfold addEntry
  by_cases hc : g.any (fun e => decide (e.1 = k)) = true
  · rw [if_pos hc]; exact h
  · rw [if_neg hc]
    have hk : k ∉ g.map Prod.fst := by
      intro hm
      rcases List.mem_map.mp hm with ⟨e, he, hek⟩
      exact hc (List.any_eq_true.mpr ⟨e, he, decide_eq_true hek⟩)
    rw [List.map_append]
    refine List.Nodup.append h (List.nodup_singleton k) ?_
    intro a ha hb
    have hak : a = k := by simpa using hb
    exact hk (hak ▸ ha)

theorem keys_nodup_foldl_addEntry (ps : List OKey) (g : List (OKey × List OKey))
    (h : (g.map Prod.fst).Nodup) : ((ps.foldl addEntry g).map Prod.fst).Nodup := by
  induction ps generalizing g with
  | nil => exact h
  | cons p rest ih => exact ih _ (keys_nodup_addEntry _ _ h)

theorem keys_nodup_addNode (g : List (OKey × List OKey)) (k : OKey) (ps : List OKey)
    (h : (g.map Prod.fst).Nodup) : ((addNode g k ps).map Prod.fst).Nodup := by
  unfold addNode
  refine keys_nodup_foldl_addEntry _ _ ?_
  rw [keys_appendPreds]
  exact keys_nodup_addEntry _ _ h

/-- The node set of the built graph holds no duplicates. -/
theorem buildGraph_keys_nodup (reg : List (OKey × Operation)) :
    ((buildGraph reg).map Prod.fst).Nodup := by
  unfold buildGraph
  suffices hgen : ∀ g : List (OKey × List OKey), (g.map Prod.fst).Nodup →
      ((reg.foldl (fun gg ko => addNode gg ko.1 (stateDeps ko.2)) g).map Prod.fst).Nodup by
    exact hgen [] List.nodup_nil
  induction reg with
  | nil => intro g hg; exact hg
  | cons ko rest ih => intro g hg; exact ih _ (keys_nodup_addNode _ _ _ hg)

/-- Embeds `graphlib.TopologicalSorter` through its documented contract:
the accumulated graph (node with predecessor list), whether `prepare` has
run, the nodes already surfaced by `get_ready`, and the nodes marked
`done`. -/
structure TopologicalSorter where
  graph : List (OKey × List OKey)
  prepared : Bool
  surfaced : List OKey
  doneKeys : List OKey
deriving DecidableEq

/-- Embeds `TopologicalSorter.add(node, *predecessors)`: a ValueError is
raised once `prepare` has run. -/
def TopologicalSorter.add (ts : TopologicalSorter) (node : OKey)
    (preds : List OKey) : Except String TopologicalSorter :=
  if ts.prepared then .error "nodes cannot be added after a call to prepare"
  else .ok { ts with graph := addNode ts.graph node preds }

/-- Repeatedly peel nodes all of whose predecessors have left the graph;
an acyclic graph empties out, a cycle gets stuck. -/
def peel : Nat → List (OKey × List OKey) → Bool
  | 0, g => g.isEmpty
  | fuel + 1, g =>
    let rest := g.filter
      (fun e => ¬ (∀ p ∈ e.2, ∀ e2 ∈ g, e2.1 ≠ p))
    if rest.length = g.length then g.isEmpty else peel fuel rest

/-- Executable acyclicity check used by `prepare`. -/
def acyclicB (g : List (OKey × List OKey)) : Bool :=
  peel g.length g

/-- Embeds `TopologicalSorter.prepare()`: a second call raises, a cycle
raises CycleError, otherwise the sorter becomes ready for `get_ready`. -/
def TopologicalSorter.prepare (ts : TopologicalSorter) :
    Except String TopologicalSorter :=
  if ts.prepared then .error "cannot prepare more than once"
  else if acyclicB ts.graph then .ok { ts with prepared := true }
  else .error "nodes are in a cycle"

/-- Nodes of the graph. -/
def TopologicalSorter.nodes (ts : TopologicalSorter) : List OKey :=
  ts.graph.map Prod.fst

/-- The batch `get_ready()` returns: nodes whose predecessors are all
done and which have not been surfaced by an earlier call. -/
def getReadyList (ts : TopologicalSorter) : List OKey :=
  ts.nodes.filter
    (fun k => decide ((∀ p ∈ lookupPreds ts.graph k, p ∈ ts.doneKeys) ∧
      k ∉ ts.surfaced))

/-- Embeds `get_ready()`: the ready batch together with the sorter that
now remembers those nodes as surfaced. -/
def TopologicalSorter.getReady (ts : TopologicalSorter) :
    List OKey × TopologicalSorter :=
  (getReadyList ts, { ts with surfaced := ts.surfaced ++ getReadyList ts })

/-- Embeds `done(node)` (the orchestrator only calls it on surfaced
nodes). -/
def TopologicalSorter.markDone (ts : TopologicalSorter) (k : OKey) :
    TopologicalSorter :=
  { ts with doneKeys := k :: ts.doneKeys }

/-- Embeds `is_active()`: true while some surfaced node is not done or a
ready batch is pending. -/
def TopologicalSorter.isActive (ts : TopologicalSorter) : Bool :=
  ts.surfaced.any (fun k => decide (k ∉ ts.doneKeys)) ||
    !(getReadyList ts).isEmpty

/-- The sorter as `PlanMeta.__new__` stores it on the Plan class:
`TopologicalSorter()`, empty and unprepared. -/
def freshSorter : TopologicalSorter := ⟨[], false, [], []⟩

/-- Embeds the graph phase of `Plan.__init__`: one `add` per registered
operation, with predecessor edges to the state-type dependencies, then
`prepare`.  The sorter argument is the class-level sorter the instance
finds: the source mutates `__onward_operation_graph__`, a class attribute
created once by `PlanMeta.__new__`, not a per-instance object. -/
def planInit (ops : List (OKey × Operation)) (ts : TopologicalSorter) :
    Except String TopologicalSorter := do
  let ts1 ← ops.foldlM (fun t ko => t.add ko.1 (stateDeps ko.2)) ts
  ts1.prepare

theorem planInit_fold_unprepared (ops : List (OKey × Operation))
    (g : List (OKey × List OKey)) (s d : List OKey) :
    ops.foldlM (fun t ko => t.add ko.1 (stateDeps ko.2))
        (⟨g, false, s, d⟩ : TopologicalSorter) =
      .ok ⟨ops.foldl (fun gg ko => addNode gg ko.1 (stateDeps ko.2)) g, false, s, d⟩ := by
  induction ops generalizing g with
  | nil => rfl
  | cons ko rest ih =>
    simp only [List.foldlM_cons, TopologicalSorter.add, Bool.false_eq_true,
      if_false, List.foldl_cons]
    exact ih _

/-- On a class whose sorter is fresh, the first instance construction
adds every registry entry and prepares; the resulting graph is exactly
`buildGraph` of the registry. -/
theorem planInit_fresh (ops : List (OKey × Operation))
    (hacyc : acyclicB (buildGraph ops) = true) :
    planInit ops freshSorter = .ok ⟨buildGraph ops, true, [], []⟩ := by
  unfold planInit freshSorter
  rw [planInit_fold_unprepared]
  show (⟨buildGraph ops, false, [], []⟩ : TopologicalSorter).prepare =
    Except.ok ⟨buildGraph ops, true, [], []⟩
  unfold TopologicalSorter.prepare
  simp [hacyc]

/-- Any later instance construction on the same class fails: the sorter
is shared class-level state and is already prepared. -/
theorem planInit_prepared_fails (ops : List (OKey × Operation))
    (ts : TopologicalSorter) (hp : ts.prepared = true) :
    ∃ m, planInit ops ts = .error m := by
  unfold planInit
  cases ops with
  | nil =>
    refine ⟨"cannot prepare more than once", ?_⟩
    rw [List.foldlM_nil]
    show ts.prepare = Except.error _
    unfold TopologicalSorter.prepare
    rw [if_pos hp]
  | cons ko rest =>
    refine ⟨"nodes cannot be added after a call to prepare", ?_⟩
    rw [List.foldlM_cons]
    unfold TopologicalSorter.add
    rw [if_pos hp]
    rfl

/-- Embeds `Plan.get_state_value`: `self.__onward_states__.get(state_type)`
— a total dictionary lookup returning the recorded value or the explicit
no-value result, never raising. -/
def getStateValue : List (PyTy × Value) → PyTy → Option Value
  | [], _ => none
  | e :: rest, t => if e.1 = t then some e.2 else getStateValue rest t

/-- Run-time state of one orchestrated run: the sorter, the result mapping
`__onward_states__`, and the keys of the units currently held by the
executor (submitted and not yet joined). -/
structure PlanInstance where
  sorter : TopologicalSorter
  states : List (PyTy × Value)
  inflight : List OKey

/-- State at entry of `start_or_resume` after `Plan.__init__` built and
prepared the graph from the registry. -/
def initInstance (reg : List (OKey × Operation)) : PlanInstance :=
  ⟨⟨buildGraph reg, true, [], []⟩, [], []⟩

/-- One iteration of the `while self.plan_active` loop of
`start_or_resume`.  When the ready batch is non-empty every ready node is
submitted to the executor in this same iteration (`dispatch`); when it is
empty the loop blocks on `join_next` and the executor hands back the
wrapper result of some in-flight unit: for a state key the value is
recorded and the node marked done — a none result would instead raise and
abort the run — and for a name key the node is only marked done.  Which
in-flight unit completes first is left nondeterministic, covering all
three executors. -/
inductive StartOrResumeStep (reg : List (OKey × Operation)) :
    PlanInstance → PlanInstance → Prop
  | dispatch (σ : PlanInstance) (hne : getReadyList σ.sorter ≠ []) :
      StartOrResumeStep reg σ
        ⟨(σ.sorter.getReady).2, σ.states, σ.inflight ++ getReadyList σ.sorter⟩
  | joinState (σ : PlanInstance) (t : PyTy) (v : Value)
      (hready : getReadyList σ.sorter = [])
      (hin : OKey.tyK t ∈ σ.inflight) (hv : v ≠ Value.vnone) :
      StartOrResumeStep reg σ
        ⟨σ.sorter.markDone (OKey.tyK t), (t, v) :: σ.states,
          σ.inflight.erase (OKey.tyK t)⟩
  | joinName (σ : PlanInstance) (s : String)
      (hready : getReadyList σ.sorter = [])
      (hin : OKey.nameK s ∈ σ.inflight) :
      StartOrResumeStep reg σ
        ⟨σ.sorter.markDone (OKey.nameK s), σ.states,
          σ.inflight.erase (OKey.nameK s)⟩

/-- States an execution of `start_or_resume` can reach. -/
def ReachableRun (reg : List (OKey × Operation)) (σ : PlanInstance) : Prop :=
  Relation.ReflTransGen (StartOrResumeStep reg) (initInstance reg) σ

theorem mem_getReadyList {ts : TopologicalSorter} {k : OKey} :
    k ∈ getReadyList ts ↔
      k ∈ ts.graph.map Prod.fst ∧
        (∀ p ∈ lookupPreds ts.graph k, p ∈ ts.doneKeys) ∧ k ∉ ts.surfaced := by
  unfold getReadyList TopologicalSorter.nodes
  rw [List.mem_filter]
  constructor
  · rintro ⟨h1, h2⟩
    have h3 := of_decide_eq_true h2
    exact ⟨h1, h3.1, h3.2⟩
  · rintro ⟨h1, h2, h3⟩
    exact ⟨h1, decide_eq_true ⟨h2, h3⟩⟩

/-- Invariant maintained by every run: the graph is the registry graph,
nodes surface at most once, done and in-flight nodes were surfaced, every
surfaced node had all its predecessors done, and every done state key has
a non-none value retrievable from the result mapping. -/
def RunInv (reg : List (OKey × Operation)) (σ : PlanInstance) : Prop :=
  σ.sorter.graph = buildGraph reg ∧
  σ.sorter.surfaced.Nodup ∧
  (∀ k ∈ σ.sorter.surfaced, k ∈ σ.sorter.graph.map Prod.fst) ∧
  (∀ k ∈ σ.sorter.doneKeys, k ∈ σ.sorter.surfaced) ∧
  (∀ k ∈ σ.inflight, k ∈ σ.sorter.surfaced) ∧
  (∀ k ∈ σ.sorter.surfaced, ∀ p ∈ lookupPreds σ.sorter.graph k,
    p ∈ σ.sorter.doneKeys) ∧
  (∀ t : PyTy, OKey.tyK t ∈ σ.sorter.doneKeys →
    ∃ v, getStateValue σ.states t = some v ∧ v ≠ Value.vnone)

theorem runInv_init (reg : List (OKey × Operation)) :
    RunInv reg (initInstance reg) := by
  refine ⟨rfl, List.nodup_nil, ?_, ?_, ?_, ?_, ?_⟩ <;>
    intro k hk <;> simp [initInstance] at hk

theorem runInv_step (reg : List (OKey × Operation)) (σ σ2 : PlanInstance)
    (hinv : RunInv reg σ) (hstep : StartOrResumeStep reg σ σ2) :
    RunInv reg σ2 := by
  obtain ⟨hg, hnd, hsub, hds, hifs, hpd, hrec⟩ := hinv
  cases hstep with
  | dispatch hne =>
    simp only [TopologicalSorter.getReady]
    have hnodes : (σ.sorter.graph.map Prod.fst).Nodup := by
      rw [hg]; exact buildGraph_keys_nodup reg
    have hreadysub : ∀ k ∈ getReadyList σ.sorter, k ∈ σ.sorter.graph.map Prod.fst :=
      fun k hk => (mem_getReadyList.mp hk).1
    refine ⟨hg, ?_, ?_, ?_, ?_, ?_, hrec⟩
    · refine List.Nodup.append hnd (List.Nodup.filter _ hnodes) ?_
      intro a ha hb
      exact (mem_getReadyList.mp hb).2.2 ha
    · intro k hk
      rcases List.mem_append.mp hk with hh | hh
      · exact hsub k hh
      · exact hreadysub k hh
    · intro k hk
      exact List.mem_append_left _ (hds k hk)
    · intro k hk
      rcases List.mem_append.mp hk with hh | hh
      · exact List.mem_append_left _ (hifs k hh)
      · exact List.mem_append_right _ hh
    · intro k hk
      rcases List.mem_append.mp hk with hh | hh
      · exact hpd k hh
      · exact (mem_getReadyList.mp hh).2.1
  | joinState t v hready hin hv =>
    simp only [TopologicalSorter.markDone]
    refine ⟨hg, hnd, hsub, ?_, ?_, ?_, ?_⟩
    · intro k hk
      rcases List.mem_cons.mp hk with hh | hh
      · rw [hh]
        exact hifs _ hin
      · exact hds k hh
    · intro k hk
      exact hifs k (List.mem_of_mem_erase hk)
    · intro k hk p hp
      exact List.mem_cons_of_mem _ (hpd k hk p hp)
    · intro t2 ht2
      by_cases hteq : t = t2
      · refine ⟨v, ?_, hv⟩
        show (if t = t2 then some v else getStateValue σ.states t2) = some v
        rw [if_pos hteq]
      · rcases List.mem_cons.mp ht2 with hh | hh
        · have ht : t2 = t := by injection hh
          exact absurd ht.symm hteq
        · obtain ⟨v2, hv2, hv2n⟩ := hrec t2 hh
          refine ⟨v2, ?_, hv2n⟩
          show (if t = t2 then some v else getStateValue σ.states t2) = some v2
          rw [if_neg hteq]
          exact hv2
  | joinName s hready hin =>
    simp only [TopologicalSorter.markDone]
    refine ⟨hg, hnd, hsub, ?_, ?_, ?_, ?_⟩
    · intro k hk
      rcases List.mem_cons.mp hk with hh | hh
      · rw [hh]
        exact hifs _ hin
      · exact hds k hh
    · intro k hk
      exact hifs k (List.mem_of_mem_erase hk)
    · intro k hk p hp
      exact List.mem_cons_of_mem _ (hpd k hk p hp)
    · intro t2 ht2
      rcases List.mem_cons.mp ht2 with hh | hh
      · exact absurd hh (by simp)
      · exact hrec t2 hh

theorem runInv_reachable (reg : List (OKey × Operation)) (σ : PlanInstance)
    (h : ReachableRun reg σ) : RunInv reg σ := by
  induction h with
  | refl => exact runInv_init reg
  | tail _ hstep ih => exact runInv_step _ _ _ ih hstep

/-- In an inactive state of a run over an acyclic registry graph, every
node of the graph has been marked done. -/
theorem all_done_of_inactive (reg : List (OKey × Operation)) (σ : PlanInstance)
    (hinv : RunInv reg σ)
    (hacyc : WellFounded (fun a b : OKey => a ∈ lookupPreds (buildGraph reg) b))
    (hia : σ.sorter.isActive = false) :
    ∀ k ∈ σ.sorter.graph.map Prod.fst, k ∈ σ.sorter.doneKeys := by
  obtain ⟨hg, hnd, hsub, hds, hifs, hpd, hrec⟩ := hinv
  unfold TopologicalSorter.isActive at hia
  rw [Bool.or_eq_false_iff] at hia
  obtain ⟨hany, hreadyb⟩ := hia
  have hsd : ∀ k ∈ σ.sorter.surfaced, k ∈ σ.sorter.doneKeys := by
    intro k hk
    by_contra hnk
    have hcontra : σ.sorter.surfaced.any
        (fun k => decide (k ∉ σ.sorter.doneKeys)) = true :=
      List.any_eq_true.mpr ⟨k, hk, decide_eq_true hnk⟩
    rw [hany] at hcontra
    exact Bool.false_ne_true hcontra
  have hready : getReadyList σ.sorter = [] := by
    rw [Bool.not_eq_false'] at hreadyb
    exact List.isEmpty_iff.mp hreadyb
  by_contra hex
  push_neg at hex
  obtain ⟨k0, hk0, hk0nd⟩ := hex
  have hne : Set.Nonempty
      {x : OKey | x ∈ σ.sorter.graph.map Prod.fst ∧ x ∉ σ.sorter.doneKeys} :=
    ⟨k0, hk0, hk0nd⟩
  obtain ⟨u, hu, humin⟩ := hacyc.has_min _ hne
  have hupreds : ∀ p ∈ lookupPreds σ.sorter.graph u, p ∈ σ.sorter.doneKeys := by
    intro p hp
    by_contra hpnd
    have hpnodes : p ∈ σ.sorter.graph.map Prod.fst := by
      rw [hg]
      exact buildGraph_closed reg u p (by rw [← hg]; exact hp)
    exact humin p ⟨hpnodes, hpnd⟩ (by rw [← hg]; exact hp)
  have husurf : u ∉ σ.sorter.surfaced := fun hs => hu.2 (hsd u hs)
  have humem : u ∈ getReadyList σ.sorter :=
    mem_getReadyList.mpr ⟨hu.1, hupreds, husurf⟩
  rw [hready] at humem
  exact absurd humem (List.not_mem_nil u)

/-- C1: for every plan whose registered operations form an acyclic
dependency graph, during any execution of start_or_resume no operation is
dispatched to the executor before every state-type dependency declared by
its descriptor has been marked done in the graph and has a value
retrievable from the result mapping; moreover the ready computation
surfaces each node key at most once, and exactly once over a completed
run. -/
theorem start_or_resume_happens_before (reg : List (OKey × Operation))
    (hnodup : (reg.map Prod.fst).Nodup)
    (hacyc : WellFounded (fun a b : OKey => a ∈ lookupPreds (buildGraph reg) b))
    (σ σ2 : PlanInstance) (hreach : ReachableRun reg σ)
    (hstep : StartOrResumeStep reg σ σ2) :
    (∀ k op, (k, op) ∈ reg → k ∈ σ2.inflight → k ∉ σ.inflight →
      ∀ d ∈ op.dependencies, d.isState = true →
        OKey.tyK d ∈ σ.sorter.doneKeys ∧
          ∃ v, getStateValue σ.states d = some v) ∧
    σ2.sorter.surfaced.Nodup ∧
    (σ2.sorter.isActive = false →
      ∀ k ∈ σ2.sorter.graph.map Prod.fst, σ2.sorter.surfaced.count k = 1) := by
  have hinv := runInv_reachable reg σ hreach
  have hinv2 := runInv_step reg σ σ2 hinv hstep
  obtain ⟨hg, hnd, hsub, hds, hifs, hpd, hrec⟩ := hinv
  refine ⟨?_, hinv2.2.1, ?_⟩
  · intro k op hkop hk2 hk1 d hd hdst
    have hkready : k ∈ getReadyList σ.sorter := by
      cases hstep with
      | dispatch hne =>
        rcases List.mem_append.mp hk2 with hh | hh
        · exact absurd hh hk1
        · exact hh
      | joinState t v hready hin hv =>
        exact absurd (List.mem_of_mem_erase hk2) hk1
      | joinName s hready hin =>
        exact absurd (List.mem_of_mem_erase hk2) hk1
    have hpredsdone := (mem_getReadyList.mp hkready).2.1
    have hpredseq : lookupPreds σ.sorter.graph k = stateDeps op := by
      rw [hg]
      exact lookupPreds_buildGraph reg k op hkop hnodup
    have hdmem : OKey.tyK d ∈ lookupPreds σ.sorter.graph k := by
      rw [hpredseq]
      exact List.mem_map.mpr ⟨d, List.mem_filter.mpr ⟨hd, hdst⟩, rfl⟩
    have hdone : OKey.tyK d ∈ σ.sorter.doneKeys := hpredsdone _ hdmem
    obtain ⟨v, hv, _⟩ := hrec d hdone
    exact ⟨hdone, v, hv⟩
  · intro hia k hk
    have hkd := all_done_of_inactive reg σ2 hinv2 hacyc hia k hk
    exact List.count_eq_one_of_mem hinv2.2.1 (hinv2.2.2.2.1 k hkd)

/-- State type produced by the first operation of the concrete two-node
plan used to instantiate the run theorems. -/
def tSW : PyTy := PyTy.stateTy 0 0

/-- Concrete provider operation: context dependency only, produces
`tSW`. -/
def opProviderW : Operation :=
  ⟨"op1", [PyTy.planTy 0], tSW, [(PyTy.planTy 0, "plan")], false⟩

/-- Concrete consumer operation: context plus `tSW`, no output. -/
def opConsumerW : Operation :=
  ⟨"op2", [PyTy.planTy 0, tSW], PyTy.noneTy,
    [(PyTy.planTy 0, "plan"), (tSW, "first")], false⟩

/-- Concrete two-operation registry: a producer and a consumer of
`tSW`. -/
def regW : List (OKey × Operation) :=
  [(OKey.tyK tSW, opProviderW), (OKey.nameK "op2", opConsumerW)]

theorem lookupPreds_regW (x : OKey) :
    lookupPreds (buildGraph regW) x =
      if OKey.tyK tSW = x then []
      else if OKey.nameK "op2" = x then [OKey.tyK tSW] else [] := by
  rw [show buildGraph regW =
    [(OKey.tyK tSW, []), (OKey.nameK "op2", [OKey.tyK tSW])] from by decide]
  rfl

theorem regW_acyclic :
    WellFounded (fun a b : OKey => a ∈ lookupPreds (buildGraph regW) b) := by
  have haccS : Acc (fun a b : OKey => a ∈ lookupPreds (buildGraph regW) b)
      (OKey.tyK tSW) := by
    constructor
    intro y hy
    rw [lookupPreds_regW] at hy
    simp at hy
  constructor
  intro a
  constructor
  intro y hy
  rw [lookupPreds_regW] at hy
  by_cases h1 : OKey.tyK tSW = a
  · rw [if_pos h1] at hy
    simp at hy
  · rw [if_neg h1] at hy
    by_cases h2 : OKey.nameK "op2" = a
    · rw [if_pos h2] at hy
      have hyS : y = OKey.tyK tSW := by simpa using hy
      rw [hyS]
      exact haccS
    · rw [if_neg h2] at hy
      simp at hy

/-- Orchestrator state after the first dispatch of the concrete plan. -/
def c1NextInstance : PlanInstance :=
  ⟨((initInstance regW).sorter.getReady).2, (initInstance regW).states,
    (initInstance regW).inflight ++ getReadyList (initInstance regW).sorter⟩

theorem start_or_resume_happens_before_witness :
    (∀ k op, (k, op) ∈ regW → k ∈ c1NextInstance.inflight →
      k ∉ (initInstance regW).inflight →
      ∀ d ∈ op.dependencies, d.isState = true →
        OKey.tyK d ∈ (initInstance regW).sorter.doneKeys ∧
          ∃ v, getStateValue (initInstance regW).states d = some v) ∧
    c1NextInstance.sorter.surfaced.Nodup ∧
    (c1NextInstance.sorter.isActive = false →
      ∀ k ∈ c1NextInstance.sorter.graph.map Prod.fst,
        c1NextInstance.sorter.surfaced.count k = 1) :=
  start_or_resume_happens_before regW (by decide) regW_acyclic
    (initInstance regW) c1NextInstance Relation.ReflTransGen.refl
    (show StartOrResumeStep regW (initInstance regW) c1NextInstance from
      StartOrResumeStep.dispatch (initInstance regW) (by decide))

/-- The five InvalidSignature conditions exactly as the specification
words them, over the declared parameters of the function (refinement
reference for claim C2). -/
def specInvalidSignatureB (f : PyFunc) : Bool :=
  (match f.ret with
   | none => true
   | some r => !(r.isState || decide (r = PyTy.noneTy))) ||
  decide (f.params = []) ||
  !(f.params.all (fun n => f.hints.any (fun nt => decide (nt.1 = n)))) ||
  !(f.hints.all (fun nt => nt.2.isState || nt.2.isPlan))

/-- A function with one typed parameter, a permitted return type, and a
body that binds one local variable: `co_varnames` is `("plan", "x")`
while `co_argcount` is 1, and local variables can never carry entries in
`get_type_hints`. -/
def fLocalW : PyFunc :=
  ⟨"op_with_local", 1, ["plan", "x"], [("plan", PyTy.planTy 0)],
    some PyTy.noneTy, false⟩

/-- C2 (code bug evidence): `fLocalW` violates none of the five
specification conditions — its single declared parameter is typed as a
Plan and its declared return is the no-output marker — yet the decorator
raises InvalidSignature, because the source scans `__code__.co_varnames`,
which also lists body local variables, instead of the declared
parameters. -/
theorem operation_rejects_local_variable :
    specInvalidSignatureB fLocalW = false ∧
    fLocalW.params = ["plan"] ∧
    operation fLocalW (fun _ => []) =
      .error (.invalidOperationSignature "has untyped arguements") :=
  ⟨by decide, by decide, rfl⟩

/-- The signature checks of the decorator, bundled: they hold exactly
when control reaches the conflict detection. -/
def validSigB (f : PyFunc) : Bool :=
  (match f.ret with
   | none => false
   | some r => r.isState || decide (r = PyTy.noneTy)) &&
  !(decide (f.varnames = [])) &&
  decide (∀ n ∈ f.varnames, ∃ nt ∈ f.hints, nt.1 = n) &&
  decide (∀ nt ∈ f.hints, nt.2.isState = true ∨ nt.2.isPlan = true)

/-- Spec-side reading of the owning-plan rule: the Plan class associated
with a state type, or the plan type itself. -/
def owningPlanOfTy : PyTy → Nat
  | .stateTy p _ => p
  | .planTy p => p
  | _ => 0

/-- Owning plan the decorator derives, as a function of the first
declared dependency type. -/
def owningPlanId (f : PyFunc) : Nat :=
  owningPlanOfTy ((f.hints.map Prod.snd).headD PyTy.noneTy)

/-- OutputKey derived for a candidate function: its declared output state
type when present, else its function name. -/
def derivedOutputKey (f : PyFunc) : OKey :=
  match f.ret with
  | some PyTy.noneTy => OKey.nameK f.name
  | some r => OKey.tyK r
  | none => OKey.nameK f.name

theorem lookupOperation_mem (l : List (OKey × Operation)) (k : OKey)
    (h : k ∈ l.map Prod.fst) : ∃ o, lookupOperation l k = some o := by
  induction l with
  | nil => simp at h
  | cons e rest ih =>
    by_cases he : e.1 = k
    · exact ⟨e.2, by simp [lookupOperation, he]⟩
    · have h2 : k ∈ rest.map Prod.fst := by
        rcases List.mem_cons.mp h with hh | hh
        · exact absurd hh.symm he
        · exact hh
      obtain ⟨o, ho⟩ := ih h2
      exact ⟨o, by simp [lookupOperation, he, ho]⟩

theorem planMatch_eq (l : List PyTy) :
    (match l.head? with
     | some (PyTy.stateTy p _) => p
     | some (PyTy.planTy p) => p
     | _ => 0) = owningPlanOfTy (l.headD PyTy.noneTy) := by
  cases l with
  | nil => rfl
  | cons t rest => cases t <;> rfl

/-- C3: a registration attempt that passes signature validation and whose
derived OutputKey already exists in the owning Plan registry fails with
DuplicateProvider (TooManyProvidersError) at registration time. -/
theorem duplicate_provider_rejected (f : PyFunc)
    (plansOps : Nat → List (OKey × Operation))
    (hsig : validSigB f = true)
    (hkey : derivedOutputKey f ∈ (plansOps (owningPlanId f)).map Prod.fst) :
    ∃ m, operation f plansOps = .error (.tooManyProviders m) := by
  unfold operation
  split
  next hret =>
    rw [validSigB, hret] at hsig
    simp at hsig
  next provides hret =>
    rw [validSigB, hret] at hsig
    simp only [Bool.and_eq_true] at hsig
    obtain ⟨⟨⟨h1, h2⟩, h3⟩, h4⟩ := hsig
    have hd1 : provides.isState = true ∨ provides = PyTy.noneTy := by
      simpa using h1
    rw [if_neg (not_not_intro hd1)]
    have hvn : ¬ f.varnames = [] := by simpa using h2
    rw [if_neg hvn]
    rw [if_neg (not_not_intro (of_decide_eq_true h3))]
    rw [if_neg (not_not_intro (of_decide_eq_true h4))]
    simp only []
    have hplan :
        (match (f.hints.map Prod.snd).head? with
         | some (PyTy.stateTy p _) => p
         | some (PyTy.planTy p) => p
         | _ => 0) = owningPlanId f := planMatch_eq (f.hints.map Prod.snd)
    rw [hplan]
    have hcond : OKey.tyK provides ∈ (plansOps (owningPlanId f)).map Prod.fst ∨
        OKey.nameK f.name ∈ (plansOps (owningPlanId f)).map Prod.fst := by
      by_cases hp : provides = PyTy.noneTy
      · right
        have : derivedOutputKey f = OKey.nameK f.name := by
          unfold derivedOutputKey
          rw [hret, hp]
        rw [← this]
        exact hkey
      · left
        have : derivedOutputKey f = OKey.tyK provides := by
          unfold derivedOutputKey
          rw [hret]
          cases provides <;> simp_all
        rw [← this]
        exact hkey
    rw [if_pos hcond]
    have hid : (⟨f.name, f.hints.map Prod.snd, provides,
        f.hints.map (fun nt => (nt.2, nt.1)), f.isAsync⟩ : Operation).opId =
        derivedOutputKey f := by
      unfold Operation.opId derivedOutputKey
      rw [hret]
      by_cases hp : provides = PyTy.noneTy
      · rw [if_pos hp, hp]
      · rw [if_neg hp]
        cases provides <;> simp_all
    rw [hid]
    obtain ⟨o, ho⟩ := lookupOperation_mem _ _ hkey
    split
    next hnone =>
      rw [ho] at hnone
      simp at hnone
    next o2 hsome =>
      by_cases hcp : OKey.tyK provides ∈ (plansOps (owningPlanId f)).map Prod.fst
      · exact ⟨_, by rw [if_pos hcp]⟩
      · exact ⟨_, by rw [if_neg hcp]⟩

/-- Registry containing an existing provider of the same state type, used
to instantiate the duplicate-provider theorem. -/
def regDupW : List (OKey × Operation) := [(OKey.tyK tSW, opProviderW)]

/-- A second candidate function that also declares `tSW` as output. -/
def fDupW : PyFunc :=
  ⟨"op1_again", 1, ["plan"], [("plan", PyTy.planTy 0)], some tSW, false⟩

theorem duplicate_provider_rejected_witness :
    ∃ m, operation fDupW (fun _ => regDupW) = .error (.tooManyProviders m) :=
  duplicate_provider_rejected fDupW (fun _ => regDupW) (by decide) (by decide)

/-- C4 (amended): the wrapper checks nothing when the declared output is
the none marker and returns the function result unchanged, paired with
the operation name; with a declared output type, a result that is not an
instance of that type — the absent value included — fails with
ReturnMismatch, and an instance is returned paired with the output
type as key. -/
theorem operation_wrapper_contract (op : Operation) (v : Value) :
    (op.provides = PyTy.noneTy →
      operationWrapper op v = .ok (v, OKey.nameK op.funcName)) ∧
    (op.provides ≠ PyTy.noneTy → isinstance v op.provides = false →
      operationWrapper op v =
        .error (.invalidOperationReturn "promised to return declared type")) ∧
    (op.provides ≠ PyTy.noneTy → isinstance v op.provides = true →
      operationWrapper op v = .ok (v, OKey.tyK op.provides)) ∧
    (op.provides ≠ PyTy.noneTy → isinstance Value.vnone op.provides = false) := by
  refine ⟨?_, ?_, ?_, ?_⟩
  · intro hp
    unfold operationWrapper
    rw [if_neg (not_not_intro hp)]
    unfold Operation.opId
    rw [if_pos hp]
  · intro hp hi
    unfold operationWrapper
    rw [if_pos hp]
    rw [if_pos (by rw [hi]; exact Bool.false_ne_true)]
  · intro hp hi
    have hv : v ≠ Value.vnone := by
      intro he
      rw [he] at hi
      cases hop : op.provides <;> rw [hop] at hi <;> simp [isinstance] at hi
      · exact hp hop
    unfold operationWrapper
    rw [if_pos hp, if_neg (by rw [hi]; exact not_not_intro rfl), if_neg hv]
    unfold Operation.opId
    rw [if_neg hp]
  · intro hp
    cases hop : op.provides <;> simp [isinstance]
    exact absurd hop hp

/-- The no-output operation of the tests, used to instantiate the wrapper
contract. -/
def opLogW : Operation :=
  ⟨"log_file", [tSW], PyTy.noneTy, [(tSW, "t")], false⟩

theorem operation_wrapper_contract_witness :
    operationWrapper opLogW (Value.vnone) =
      .ok (Value.vnone, OKey.nameK "log_file") :=
  (operation_wrapper_contract opLogW Value.vnone).1 rfl

/-- C4 counterexample: a wrapper whose declared output is the none marker
does not return the none marker when the wrapped function misbehaves —
the returned value passes through unchecked. -/
theorem operation_wrapper_none_unchecked :
    operationWrapper opLogW (Value.vother "int" 42) =
      .ok (Value.vother "int" 42, OKey.nameK "log_file") ∧
    Value.vother "int" 42 ≠ Value.vnone :=
  ⟨rfl, by decide⟩

/-- Helper: the explicit no-value lookup result on an unrecorded key. -/
theorem getStateValue_eq_none (l : List (PyTy × Value)) (t : PyTy)
    (h : ∀ v, (t, v) ∉ l) : getStateValue l t = none := by
  induction l with
  | nil => rfl
  | cons e rest ih =>
    by_cases he : e.1 = t
    · exact absurd (by rw [← he]; exact List.mem_cons_self _ _) (h e.2)
    · simp only [getStateValue, if_neg he]
      refine ih ?_
      intro v hv
      exact h v (List.mem_cons_of_mem _ hv)

/-- C9: in any reachable run state, `get_state_value` returns the
recorded value once the producer of a state type has completed (been
marked done), and returns the explicit no-value result for a type that
was never recorded; being a total lookup it never raises. -/
theorem get_state_value_total (reg : List (OKey × Operation))
    (σ : PlanInstance) (hreach : ReachableRun reg σ) (t : PyTy) :
    (OKey.tyK t ∈ σ.sorter.doneKeys →
      ∃ v, getStateValue σ.states t = some v ∧ v ≠ Value.vnone) ∧
    ((∀ v : Value, (t, v) ∉ σ.states) → getStateValue σ.states t = none) := by
  constructor
  · intro hd
    exact (runInv_reachable reg σ hreach).2.2.2.2.2.2 t hd
  · intro hnone
    exact getStateValue_eq_none _ _ hnone

theorem get_state_value_total_witness :
    (OKey.tyK tSW ∈ (initInstance regW).sorter.doneKeys →
      ∃ v, getStateValue (initInstance regW).states tSW = some v ∧
        v ≠ Value.vnone) ∧
    ((∀ v : Value, (tSW, v) ∉ (initInstance regW).states) →
      getStateValue (initInstance regW).states tSW = none) :=
  get_state_value_total regW (initInstance regW) Relation.ReflTransGen.refl tSW

/-- Helper for C10: a successful registration reports the plan selected
from the first declared dependency type. -/
theorem operation_ok_plan (f : PyFunc)
    (plansOps : Nat → List (OKey × Operation)) (p : Nat)
    (reg2 : List (OKey × Operation))
    (hok : operation f plansOps = .ok (p, reg2)) :
    p = owningPlanOfTy ((f.hints.map Prod.snd).headD PyTy.noneTy) := by
  unfold operation at hok
  split at hok
  next hret => exact absurd hok (by simp)
  next provides hret =>
    split at hok
    next => exact absurd hok (by simp)
    next =>
      split at hok
      next => exact absurd hok (by simp)
      next =>
        split at hok
        next => exact absurd hok (by simp)
        next =>
          split at hok
          next => exact absurd hok (by simp)
          next =>
            simp only [] at hok
            split at hok
            next =>
              split at hok
              · exact absurd hok (by simp)
              · split at hok <;> exact absurd hok (by simp)
            next =>
              have hinj := Except.ok.inj hok
              have hp : (match (f.hints.map Prod.snd).head? with
                | some (PyTy.stateTy q _) => q
                | some (PyTy.planTy q) => q
                | _ => 0) = p := congrArg Prod.fst hinj
              rw [← hp]
              exact planMatch_eq (f.hints.map Prod.snd)

/-- C10: the owning Plan registry of an accepted function is determined
solely by the first declared parameter: the Plan class bound to that
parameter state type, or the parameter own type when it is a Plan; the
remaining parameter types play no role. -/
theorem owning_plan_first_parameter (f : PyFunc)
    (plansOps : Nat → List (OKey × Operation)) (p : Nat)
    (reg2 : List (OKey × Operation))
    (hok : operation f plansOps = .ok (p, reg2)) :
    p = owningPlanOfTy ((f.hints.map Prod.snd).headD PyTy.noneTy) ∧
    (∀ (g : PyFunc) (plansOps2 : Nat → List (OKey × Operation)) (q : Nat)
      (reg3 : List (OKey × Operation)),
      operation g plansOps2 = .ok (q, reg3) →
      (g.hints.map Prod.snd).head? = (f.hints.map Prod.snd).head? → q = p) := by
  have h1 := operation_ok_plan f plansOps p reg2 hok
  refine ⟨h1, ?_⟩
  intro g plansOps2 q reg3 hok2 hheads
  have h2 := operation_ok_plan g plansOps2 q reg3 hok2
  rw [h2, h1]
  have : (g.hints.map Prod.snd).headD PyTy.noneTy =
      (f.hints.map Prod.snd).headD PyTy.noneTy := by
    rw [List.headD_eq_head?_getD, List.headD_eq_head?_getD, hheads]
  rw [this]

/-- Registration input used to instantiate the owning-plan theorem: first
parameter typed as a state of plan 7, second as the plan itself. -/
def fPlanSelW : PyFunc :=
  ⟨"consumer", 2, ["first", "plan"],
    [("first", PyTy.stateTy 7 3), ("plan", PyTy.planTy 7)],
    some PyTy.noneTy, false⟩

theorem owning_plan_first_parameter_witness :
    7 = owningPlanOfTy ((fPlanSelW.hints.map Prod.snd).headD PyTy.noneTy) ∧
    (∀ (g : PyFunc) (plansOps2 : Nat → List (OKey × Operation)) (q : Nat)
      (reg3 : List (OKey × Operation)),
      operation g plansOps2 = .ok (q, reg3) →
      (g.hints.map Prod.snd).head? = (fPlanSelW.hints.map Prod.snd).head? →
        q = 7) :=
  owning_plan_first_parameter fPlanSelW (fun _ => []) 7 _ rfl

theorem joinNext_append (l : List (Value × OKey)) (x : Value × OKey)
    (timeout : Option Nat) :
    (SynchronousExecutor.mk (l ++ [x])).joinNext timeout = .ok (x, ⟨l⟩) := by
  unfold SynchronousExecutor.joinNext
  rw [List.getLast?_concat]
  show Except.ok (x, SynchronousExecutor.mk (l ++ [x]).dropLast) = Except.ok (x, ⟨l⟩)
  rw [List.dropLast_concat]

/-- C6: the serial executor holds submitted units in a last-in-first-out
stack: `add_operations` pushes in submission order, and each `join_next`
pops and executes the most recently submitted not-yet-joined unit,
returning its result immediately — so a batch of three simultaneously
ready units executes in reverse-submission order. -/
theorem serial_executor_lifo (e : SynchronousExecutor)
    (a b c : (Value × OKey) × OKey) (timeout : Option Nat) :
    (e.addOperations [a, b, c]).schedule = e.schedule ++ [a.1, b.1, c.1] ∧
    (e.addOperations [a, b, c]).joinNext timeout =
      .ok (c.1, ⟨e.schedule ++ [a.1, b.1]⟩) ∧
    (SynchronousExecutor.mk (e.schedule ++ [a.1, b.1])).joinNext timeout =
      .ok (b.1, ⟨e.schedule ++ [a.1]⟩) ∧
    (SynchronousExecutor.mk (e.schedule ++ [a.1])).joinNext timeout =
      .ok (a.1, ⟨e.schedule⟩) := by
  have hsched : (e.addOperations [a, b, c]).schedule =
      e.schedule ++ [a.1, b.1, c.1] := by
    simp [SynchronousExecutor.addOperations]
  refine ⟨hsched, ?_, ?_, ?_⟩
  · have h1 : e.addOperations [a, b, c] =
        SynchronousExecutor.mk ((e.schedule ++ [a.1, b.1]) ++ [c.1]) := by
      cases e
      simp [SynchronousExecutor.addOperations]
    rw [h1, joinNext_append]
  · have h2 : e.schedule ++ [a.1, b.1] = (e.schedule ++ [a.1]) ++ [b.1] := by
      simp
    rw [h2, joinNext_append]
  · exact joinNext_append _ _ _

/-- C5 (amended): `join_next` with nothing in flight fails with NotRunning
on the serial and thread-pool executors, and on the asyncio executor
whenever its event loop is not closed; a closed loop defeats the guard
(see the counterexample). -/
theorem join_next_not_running (es : SynchronousExecutor)
    (et : ThreadedExecutor) (ea : AsyncioExecutor) (timeout : Option Nat)
    (hs : es.schedule = []) (ht : et.futures = []) (ha : ea.tasks = [])
    (hl : ea.loopClosed = false) :
    es.joinNext timeout = .error .notRunning ∧
    et.joinNext timeout = (.error .notRunning, et) ∧
    ea.joinNext timeout = (.error .notRunning, ea) := by
  refine ⟨?_, ?_, ?_⟩
  · unfold SynchronousExecutor.joinNext
    rw [hs]
    rfl
  · unfold ThreadedExecutor.joinNext
    rw [ht]
    rfl
  · unfold AsyncioExecutor.joinNext AsyncioExecutor.running
    rw [ha, hl]
    rfl

theorem join_next_not_running_witness :
    (SynchronousExecutor.mk []).joinNext none = .error .notRunning ∧
    (ThreadedExecutor.mk []).joinNext none =
      (.error .notRunning, ThreadedExecutor.mk []) ∧
    (AsyncioExecutor.mk [] false).joinNext none =
      (.error .notRunning, AsyncioExecutor.mk [] false) :=
  join_next_not_running _ _ _ none rfl rfl rfl rfl

/-- The asyncio executor with no in-flight task but a closed loop. -/
def closedLoopExec : AsyncioExecutor := ⟨[], true⟩

/-- C5 counterexample: with nothing in flight but the loop closed, the
`running` property reports true, the NotRunning guard is bypassed, and
the join fails with StopIteration from the exhausted completion iterator
instead of NotRunning. -/
theorem join_next_closed_loop_not_notRunning :
    closedLoopExec.tasks = [] ∧
    closedLoopExec.running = true ∧
    closedLoopExec.joinNext none = (.error .stopIteration, closedLoopExec) ∧
    ExecErr.stopIteration ≠ ExecErr.notRunning :=
  ⟨rfl, rfl, rfl, by decide⟩

/-- C7 (amended): the thread-pool join honors its timeout — when the
first future to complete does so after the window, the call reports the
timeout error and leaves the in-flight set unchanged — while the asyncio
join ignores the timeout argument altogether. -/
theorem join_next_timeout (et : ThreadedExecutor) (f : PFuture) (t : Nat)
    (hf : firstCompleted et.futures = some f) (ht : t < f.ctime) :
    et.joinNext (some t) = (.error .timeoutError, et) ∧
    (∀ (ea : AsyncioExecutor) (t1 t2 : Option Nat),
      ea.joinNext t1 = ea.joinNext t2) := by
  constructor
  · have hne : et.futures.length > 0 := by
      cases hfut : et.futures with
      | nil =>
        rw [hfut] at hf
        simp [firstCompleted] at hf
      | cons x rest => simp [hfut]
    unfold ThreadedExecutor.joinNext
    rw [if_pos hne, hf]
    show (if t < f.ctime then
        ((.error .timeoutError, et) :
          Except ExecErr (Value × OKey) × ThreadedExecutor)
      else (.ok f.result, ⟨et.futures.erase f⟩)) = (.error .timeoutError, et)
    rw [if_pos ht]
  · intro ea t1 t2
    rfl

/-- One pending future that completes at instant 5. -/
def pendingFutureW : PFuture := ⟨(Value.vnone, OKey.nameK "op2"), 5⟩

theorem join_next_timeout_witness :
    (ThreadedExecutor.mk [pendingFutureW]).joinNext (some 1) =
      (.error .timeoutError, ThreadedExecutor.mk [pendingFutureW]) ∧
    (∀ (ea : AsyncioExecutor) (t1 t2 : Option Nat),
      ea.joinNext t1 = ea.joinNext t2) :=
  join_next_timeout (ThreadedExecutor.mk [pendingFutureW]) pendingFutureW 1
    rfl (by decide)

/-- One-task asyncio executor whose task completes at instant 5. -/
def lateTaskExec : AsyncioExecutor :=
  ⟨[⟨OKey.tyK tSW, (Value.vstate 0 0 0, OKey.tyK tSW), 5⟩], false⟩

/-- C7 counterexample: joining with timeout 1 while the only in-flight
task completes at instant 5 returns that result anyway and removes the
task from the in-flight map — the asyncio executor does not honor the
timeout window. -/
theorem asyncio_join_ignores_timeout :
    lateTaskExec.joinNext (some 1) =
      (.ok (Value.vstate 0 0 0, OKey.tyK tSW), ⟨[], false⟩) ∧ 1 < 5 :=
  ⟨rfl, by decide⟩

/-- C8 (amended): the dependency graph is class-level state created once
by PlanMeta, empty and unprepared; the first instance construction
populates it from the full registry — each OutputKey with predecessor
edges to its state-type dependency keys, the context dependency excluded
— and prepares it before any dispatch; but because the graph is shared by
the class, constructing any further instance of the same Plan class fails
instead of starting a fresh run. -/
theorem plan_graph_class_level (ops : List (OKey × Operation))
    (hacyc : acyclicB (buildGraph ops) = true)
    (hnd : (ops.map Prod.fst).Nodup) :
    planInit ops freshSorter = .ok ⟨buildGraph ops, true, [], []⟩ ∧
    (∀ k op, (k, op) ∈ ops →
      lookupPreds (buildGraph ops) k = stateDeps op) ∧
    (∃ m, planInit ops ⟨buildGraph ops, true, [], []⟩ = .error m) := by
  refine ⟨planInit_fresh ops hacyc, ?_, planInit_prepared_fails ops _ rfl⟩
  intro k op hk
  exact lookupPreds_buildGraph ops k op hk hnd

theorem plan_graph_class_level_witness :
    planInit regW freshSorter = .ok ⟨buildGraph regW, true, [], []⟩ ∧
    (∀ k op, (k, op) ∈ regW →
      lookupPreds (buildGraph regW) k = stateDeps op) ∧
    (∃ m, planInit regW ⟨buildGraph regW, true, [], []⟩ = .error m) :=
  plan_graph_class_level regW (by decide) (by decide)

/-- C8 counterexample: on the concrete two-operation plan the first
instance construction succeeds and prepares the class-level graph, and a
second construction of the same Plan class raises instead of starting a
fresh run. -/
theorem second_instance_construction_fails :
    planInit regW freshSorter =
      .ok ⟨[(OKey.tyK tSW, []), (OKey.nameK "op2", [OKey.tyK tSW])],
        true, [], []⟩ ∧
    planInit regW
        ⟨[(OKey.tyK tSW, []), (OKey.nameK "op2", [OKey.tyK tSW])],
          true, [], []⟩ =
      .error "nodes cannot be added after a call to prepare" :=
  ⟨rfl, rfl⟩

end Onward
